import Mathlib

set_option linter.unusedVariables false

/-!
# Verification of the ledger `zipper` merge tool

A shallow embedding of `tools/zipper/main.go` from the `ledger` repository.
The tool merges two ledger files: it deduplicates their directive lists and
"zips" their transaction lists together, locating a sync point by matching
transaction `Code` fields, extending the common region forward, and then
interleaving the diverging tails under a deterministic tie-break cascade over
the `ID`, `RID` and `FITID` key/value annotations.

Go slices become `List`, Go `map[string]string` becomes an association list
queried with `List.lookup`, a Go runtime panic from an out-of-range index
becomes the `MergeErr.indexOutOfRange` result, and `os.Exit(1)` error paths
become the other `MergeErr` constructors.  Dates are modelled as integers:
the program only compares them with `Before`/`After`, a strict total order.
-/

/-- Outcomes by which the merge can abort: a Go runtime index-out-of-range
panic, the (intended) "No sync point found!" exit, and the "Could not order
some transactions" exit. -/
inductive MergeErr where
  | indexOutOfRange
  | noSyncPoint
  | unorderable
deriving DecidableEq

/-- Result of a phase of the merge: a value, or an abort of the process. -/
inductive MResult (α : Type) where
  | ok : α → MResult α
  | error : MergeErr → MResult α
deriving DecidableEq

/-- A ledger transaction, with the fields the zipper tool reads: `Code`
(overlap matching), `Date` (ordering; a calendar date, compared only with
`Before`/`After`, so an integer suffices), and `KVPairs` (string key/value
annotations, queried only through map lookup). -/
structure Transaction where
  code : String
  date : Int
  kvPairs : List (String × String)
deriving DecidableEq

/-- A ledger directive.  The concrete field set lives in the external
`ledger` library; the tool only touches `FoundBefore` (provenance) and the
`Compare` method, so we carry a representative structural payload plus the
provenance field. -/
structure Directive where
  dtype : String
  argument : String
  foundBefore : Int
deriving DecidableEq

/-- `chooseAB` from `main.go`: decide which of two transactions' `KVPairs`
maps goes first, judged by a single key.  `-1` means the first map's side,
`1` the second's, `0` undecided.  Go's `<` on strings is byte-wise
lexicographic, which on UTF-8 text coincides with code-point lexicographic
order; Lean's `String` order is that same order on the underlying character
list (`String.lt` is `·.data < ·.data`), and we compare the character lists
directly. -/
def chooseAB (a b : List (String × String)) (key : String) : Int :=
  match a.lookup key, b.lookup key with
  | some _, none => -1
  | none, some _ => 1
  | none, none => 0
  | some id1, some id2 =>
    if id1 = id2 then 0
    else if id1.data < id2.data then -1
    else 1

/-- The backward sync-point scan (`main.go` lines 86–91).  The argument `n`
is the Go loop variable `syncPoint + 1`, so `n = 0` is the loop exiting with
`syncPoint = -1`.  Each iteration evaluates
`f1trs[syncPoint].Code == f2trs[0].Code`; Go bounds-checks both indexing
operations, so an empty `f2trs` panics on the first executed iteration. -/
def syncScanAux (a b : List Transaction) : Nat → MResult Int
  | 0 => .ok (-1)
  | sp + 1 =>
    match a[sp]?, b[0]? with
    | some asp, some b0 =>
      if asp.code = b0.code then .ok (sp : Int) else syncScanAux a b sp
    | _, _ => .error .indexOutOfRange

/-- The sync-point search including the (dead) error check
`if syncPoint == len(f1trs)` from `main.go` lines 92–95. -/
def findSyncPoint (a b : List Transaction) : MResult Int :=
  match syncScanAux a b a.length with
  | .error e => .error e
  | .ok sp => if sp = (a.length : Int) then .error .noSyncPoint else .ok sp

/-- The forward common-region walk (`main.go` lines 103–111): starting from
cursors `i1 = syncPoint + 1`, `i2 = 1`, while `i1 < len(f1trs) || i2 <
len(f2trs)` it appends `f1trs[i1]` as long as the `Code`s match.  The loop
condition is the source's disjunction, so the body's two indexing operations
are evaluated (and bounds-checked by the Go runtime) even when only one
cursor is still in range.  Returns the appended run and the final cursors. -/
def commonWalk (a b : List Transaction) (i1 i2 : Nat) :
    MResult (List Transaction × Nat × Nat) :=
  if h : i1 < a.length ∨ i2 < b.length then
    match a[i1]?, b[i2]? with
    | some x, some y =>
      if x.code ≠ y.code then .ok ([], i1, i2)
      else
        match commonWalk a b (i1 + 1) (i2 + 1) with
        | .error e => .error e
        | .ok (c, j1, j2) => .ok (x :: c, j1, j2)
    | _, _ => .error .indexOutOfRange
  else .ok ([], i1, i2)
termination_by (a.length - i1) + (b.length - i2)
decreasing_by simp_wf; omega

/-- The zipper tail interleave (`main.go` lines 114–180): exhausted-side
cases first, then the date comparison, then the `ID`/`RID`/`FITID` tie-break
cascade, and finally the "Could not order some transactions" exit.  The Go
code stores each `chooseAB` result in a local `dir` before testing its sign;
`chooseAB` is pure, so those calls are written inline here. -/
def zipper (a b : List Transaction) (i1 i2 : Nat) : MResult (List Transaction) :=
  if h : i1 < a.length ∨ i2 < b.length then
    if h1 : a.length ≤ i1 then
      match b[i2]? with
      | some y =>
        match zipper a b i1 (i2 + 1) with
        | .error e => .error e
        | .ok rest => .ok (y :: rest)
      | none => .error .indexOutOfRange
    else if h2 : b.length ≤ i2 then
      match a[i1]? with
      | some x =>
        match zipper a b (i1 + 1) i2 with
        | .error e => .error e
        | .ok rest => .ok (x :: rest)
      | none => .error .indexOutOfRange
    else
      match a[i1]?, b[i2]? with
      | some x, some y =>
        if x.date < y.date then
          match zipper a b (i1 + 1) i2 with
          | .error e => .error e
          | .ok rest => .ok (x :: rest)
        else if y.date < x.date then
          match zipper a b i1 (i2 + 1) with
          | .error e => .error e
          | .ok rest => .ok (y :: rest)
        else
          if chooseAB x.kvPairs y.kvPairs "ID" < 0 then
            match zipper a b (i1 + 1) i2 with
            | .error e => .error e
            | .ok rest => .ok (x :: rest)
          else if 0 < chooseAB x.kvPairs y.kvPairs "ID" then
            match zipper a b i1 (i2 + 1) with
            | .error e => .error e
            | .ok rest => .ok (y :: rest)
          else
            if chooseAB x.kvPairs y.kvPairs "RID" < 0 then
              match zipper a b (i1 + 1) i2 with
              | .error e => .error e
              | .ok rest => .ok (x :: rest)
            else if 0 < chooseAB x.kvPairs y.kvPairs "RID" then
              match zipper a b i1 (i2 + 1) with
              | .error e => .error e
              | .ok rest => .ok (y :: rest)
            else
              if chooseAB x.kvPairs y.kvPairs "FITID" < 0 then
                match zipper a b (i1 + 1) i2 with
                | .error e => .error e
                | .ok rest => .ok (x :: rest)
              else if 0 < chooseAB x.kvPairs y.kvPairs "FITID" then
                match zipper a b i1 (i2 + 1) with
                | .error e => .error e
                | .ok rest => .ok (y :: rest)
              else .error .unorderable
      | _, _ => .error .indexOutOfRange
  else .ok []
termination_by (a.length - i1) + (b.length - i2)
decreasing_by all_goals simp_wf; omega

/-- The whole transaction merge (`main.go` lines 83–180): sync-point search,
the prefix of the master through the sync point (`for i := 0; i <= syncPoint`),
the forward common-region walk, then the zipper tail interleave. -/
def mergeTransactions (a b : List Transaction) : MResult (List Transaction) :=
  match findSyncPoint a b with
  | .error e => .error e
  | .ok sp =>
    let upToSync := a.take (sp + 1).toNat
    match commonWalk a b (sp + 1).toNat 1 with
    | .error e => .error e
    | .ok (common, i1, i2) =>
      match zipper a b i1 i2 with
      | .error e => .error e
      | .ok tail => .ok (upToSync ++ common ++ tail)

/-- The inner loop of the directive merge (`main.go` lines 71–75): does any
element of `f1drs` make `d2.Compare(d1)` true? -/
def directiveDup (cmp : Directive → Directive → Bool) (d2 : Directive) :
    List Directive → Bool
  | [] => false
  | d1 :: rest => if cmp d2 d1 then true else directiveDup cmp d2 rest

/-- The outer loop of the directive merge (`main.go` lines 69–77): keep the
elements of `f2drs` that match no element of `f1drs`, in order. -/
def mergeDirectivesLoop (cmp : Directive → Directive → Bool)
    (f1drs : List Directive) : List Directive → List Directive
  | [] => []
  | d2 :: rest =>
    if directiveDup cmp d2 f1drs then mergeDirectivesLoop cmp f1drs rest
    else d2 :: mergeDirectivesLoop cmp f1drs rest

/-- The directive merge (`main.go` lines 67–77): all of `f1drs`, followed by
the elements of `f2drs` that `Compare`-match nothing in `f1drs`. -/
def mergeDirectives (cmp : Directive → Directive → Bool)
    (f1drs f2drs : List Directive) : List Directive :=
  f1drs ++ mergeDirectivesLoop cmp f1drs f2drs

/-- The provenance-reset loop `for _, d := range drs { d.FoundBefore = 0 }`
(`main.go` lines 78–80).  Go's `range` clause binds `d` to a copy of each
slice element, so the assignment writes to that per-iteration copy and the
slice contents are left unchanged. -/
def resetFoundBefore (drs : List Directive) : List Directive :=
  drs.map fun d =>
    let upd : Directive := { d with foundBefore := 0 }
    d

/-- Modelled from the spec: `Directive.Compare` is defined in the external
`ledger` library, outside this tool's source; per the spec it is "structural
equality ignoring provenance". -/
def directiveCompare (d2 d1 : Directive) : Bool :=
  d2.dtype = d1.dtype ∧ d2.argument = d1.argument

/-- The merge pipeline as `main` runs it after parsing: directive merge and
provenance reset, then the transaction merge.  `main` only reaches
`os.Create(dest)` and writes the output file after both phases have finished
in memory, so producing an `.ok` value models the file being written and an
`.error` models the process exiting with no output file created. -/
def runZipper (a b : List Transaction) (adrs bdrs : List Directive) :
    MResult (List Transaction × List Directive) :=
  let drs := resetFoundBefore (mergeDirectives directiveCompare adrs bdrs)
  match mergeTransactions a b with
  | .error e => .error e
  | .ok trs => .ok (trs, drs)

/-- Prepend a transaction to a successful interleave result, propagating an
abort unchanged.  Used to state what a single zipper step emits. -/
def MResult.push (t : Transaction) :
    MResult (List Transaction) → MResult (List Transaction)
  | .ok rest => .ok (t :: rest)
  | .error e => .error e

/-- The tie-break for one key as the specification words it (§4.3):
`some true` means the first (master) side goes first, `some false` the
second (source) side, `none` that the key is inconclusive.  If exactly one
side has the key, that side wins; if neither has it, or both have it with
equal values, the key is inconclusive; if both have it with different
values, the side with the lexically smaller value wins. -/
def chooseSideSpec (kva kvb : List (String × String)) (key : String) :
    Option Bool :=
  match kva.lookup key, kvb.lookup key with
  | some _, none => some true
  | none, some _ => some false
  | none, none => none
  | some v1, some v2 =>
    if v1 = v2 then none
    else if v1.data < v2.data then some true
    else some false

/-- The tie-break cascade as the specification words it: the keys `ID`,
`RID`, `FITID` are tried in this fixed order; the first conclusive key
decides. -/
def cascadeSpec (kva kvb : List (String × String)) : Option Bool :=
  match chooseSideSpec kva kvb "ID" with
  | some s => some s
  | none =>
    match chooseSideSpec kva kvb "RID" with
    | some s => some s
    | none => chooseSideSpec kva kvb "FITID"

/-! ## Concrete sample data used to exercise the merge -/

/-- Sample transaction: `Code "A"`, date 1, no annotations. -/
def zA : Transaction := ⟨"A", 1, []⟩

/-- Sample transaction: `Code "B"`, date 2, no annotations. -/
def zB : Transaction := ⟨"B", 2, []⟩

/-- Sample transaction: `Code "C"`, date 3, no annotations. -/
def zC : Transaction := ⟨"C", 3, []⟩

/-- Sample transaction: `Code "X"`, date 1, no annotations. -/
def txX : Transaction := ⟨"X", 1, []⟩

/-- Sample transaction: `Code "Y"`, date 1, no annotations. -/
def txY : Transaction := ⟨"Y", 1, []⟩

/-- Sample transaction: `Code "Z"`, date 2, no annotations. -/
def txZ : Transaction := ⟨"Z", 2, []⟩

/-- Sample same-date transaction carrying `ID = "x1"`. -/
def wID1 : Transaction := ⟨"A", 5, [("ID", "x1")]⟩

/-- Sample same-date transaction carrying `ID = "x2"`. -/
def wID2 : Transaction := ⟨"B", 5, [("ID", "x2")]⟩

/-- Sample same-date transaction with no identity annotations at all. -/
def u1 : Transaction := ⟨"A", 5, []⟩

/-- Second sample same-date transaction with no identity annotations. -/
def u2 : Transaction := ⟨"B", 5, []⟩

/-- Sample directive with a non-zero provenance position. -/
def d7 : Directive := ⟨"account", "assets", 7⟩

/-! ## Library of facts about the embedded operations -/

theorem getElem?_some_lt {α : Type} {l : List α} {i : Nat} {x : α}
    (h : l[i]? = some x) : i < l.length :=
  (List.getElem?_eq_some.mp h).1

theorem getElem?_some_drop {α : Type} {l : List α} {i : Nat} {x : α}
    (h : l[i]? = some x) : l.drop i = x :: l.drop (i + 1) := by
  obtain ⟨hlt, hx⟩ := List.getElem?_eq_some.mp h
  rw [List.drop_eq_getElem_cons hlt, hx]

/-- Emitting the master-side element at the head of an interleave preserves
the permutation and length bookkeeping. -/
theorem emitA_step {a b : List Transaction} {i1 i2 : Nat} {x : Transaction}
    {rest : List Transaction} (hx : a[i1]? = some x)
    (ihp : rest.Perm (a.drop (i1 + 1) ++ b.drop i2) ∧
           rest.length = (a.length - (i1 + 1)) + (b.length - i2)) :
    (x :: rest).Perm (a.drop i1 ++ b.drop i2) ∧
    (x :: rest).length = (a.length - i1) + (b.length - i2) := by
  have hlt := getElem?_some_lt hx
  refine ⟨?_, ?_⟩
  · rw [getElem?_some_drop hx, List.cons_append]
    exact ihp.1.cons x
  · simp only [List.length_cons, ihp.2]
    omega

/-- Emitting the source-side element at the head of an interleave preserves
the permutation and length bookkeeping. -/
theorem emitB_step {a b : List Transaction} {i1 i2 : Nat} {y : Transaction}
    {rest : List Transaction} (hy : b[i2]? = some y)
    (ihp : rest.Perm (a.drop i1 ++ b.drop (i2 + 1)) ∧
           rest.length = (a.length - i1) + (b.length - (i2 + 1))) :
    (y :: rest).Perm (a.drop i1 ++ b.drop i2) ∧
    (y :: rest).length = (a.length - i1) + (b.length - i2) := by
  have hlt := getElem?_some_lt hy
  refine ⟨?_, ?_⟩
  · rw [getElem?_some_drop hy]
    exact (ihp.1.cons y).trans List.perm_middle.symm
  · simp only [List.length_cons, ihp.2]
    omega

/-- When the zipper tail interleave terminates normally it produces exactly
the two remaining suffixes, interleaved: a permutation of
`a.drop i1 ++ b.drop i2`, of the corresponding length. -/
theorem zipper_ok_spec (a b : List Transaction) :
    ∀ (m i1 i2 : Nat) (t : List Transaction),
      a.length - i1 + (b.length - i2) ≤ m →
      zipper a b i1 i2 = .ok t →
      t.Perm (a.drop i1 ++ b.drop i2) ∧
      t.length = a.length - i1 + (b.length - i2) := by
  intro m
  induction m with
  | zero =>
    intro i1 i2 t hm h
    rw [zipper.eq_def, dif_neg (by omega : ¬(i1 < a.length ∨ i2 < b.length))] at h
    cases h
    refine ⟨?_, by simp; omega⟩
    rw [List.drop_eq_nil_of_le (by omega), List.drop_eq_nil_of_le (by omega)]
    simp
  | succ m ih =>
    intro i1 i2 t hm h
    rw [zipper.eq_def] at h
    by_cases hc : i1 < a.length ∨ i2 < b.length
    · rw [dif_pos hc] at h
      by_cases h1 : a.length ≤ i1
      · rw [dif_pos h1] at h
        cases hy : b[i2]? with
        | none => simp only [hy] at h; exact MResult.noConfusion h
        | some y =>
          simp only [hy] at h
          cases hr : zipper a b i1 (i2 + 1) with
          | error e => simp only [hr] at h; exact MResult.noConfusion h
          | ok rest =>
            simp only [hr] at h
            cases h
            exact emitB_step hy
              (ih i1 (i2 + 1) rest (by have := getElem?_some_lt hy; omega) hr)
      · rw [dif_neg h1] at h
        by_cases h2 : b.length ≤ i2
        · rw [dif_pos h2] at h
          cases hx : a[i1]? with
          | none => simp only [hx] at h; exact MResult.noConfusion h
          | some x =>
            simp only [hx] at h
            cases hr : zipper a b (i1 + 1) i2 with
            | error e => simp only [hr] at h; exact MResult.noConfusion h
            | ok rest =>
              simp only [hr] at h
              cases h
              exact emitA_step hx (ih (i1 + 1) i2 rest (by omega) hr)
        · rw [dif_neg h2] at h
          push_neg at h1 h2
          cases hx : a[i1]? with
          | none => simp only [hx] at h; exact MResult.noConfusion h
          | some x =>
            cases hy : b[i2]? with
            | none => simp only [hx, hy] at h; exact MResult.noConfusion h
            | some y =>
              simp only [hx, hy] at h
              by_cases hd1 : x.date < y.date
              · rw [if_pos hd1] at h
                cases hr : zipper a b (i1 + 1) i2 with
                | error e => simp only [hr] at h; exact MResult.noConfusion h
                | ok rest =>
                  simp only [hr] at h
                  cases h
                  exact emitA_step hx (ih (i1 + 1) i2 rest (by omega) hr)
              · rw [if_neg hd1] at h
                by_cases hd2 : y.date < x.date
                · rw [if_pos hd2] at h
                  cases hr : zipper a b i1 (i2 + 1) with
                  | error e => simp only [hr] at h; exact MResult.noConfusion h
                  | ok rest =>
                    simp only [hr] at h
                    cases h
                    exact emitB_step hy (ih i1 (i2 + 1) rest (by omega) hr)
                · rw [if_neg hd2] at h
                  by_cases k1 : chooseAB x.kvPairs y.kvPairs "ID" < 0
                  · rw [if_pos k1] at h
                    cases hr : zipper a b (i1 + 1) i2 with
                    | error e => simp only [hr] at h; exact MResult.noConfusion h
                    | ok rest =>
                      simp only [hr] at h
                      cases h
                      exact emitA_step hx (ih (i1 + 1) i2 rest (by omega) hr)
                  · rw [if_neg k1] at h
                    by_cases k2 : 0 < chooseAB x.kvPairs y.kvPairs "ID"
                    · rw [if_pos k2] at h
                      cases hr : zipper a b i1 (i2 + 1) with
                      | error e => simp only [hr] at h; exact MResult.noConfusion h
                      | ok rest =>
                        simp only [hr] at h
                        cases h
                        exact emitB_step hy (ih i1 (i2 + 1) rest (by omega) hr)
                    · rw [if_neg k2] at h
                      by_cases k3 : chooseAB x.kvPairs y.kvPairs "RID" < 0
                      · rw [if_pos k3] at h
                        cases hr : zipper a b (i1 + 1) i2 with
                        | error e => simp only [hr] at h; exact MResult.noConfusion h
                        | ok rest =>
                          simp only [hr] at h
                          cases h
                          exact emitA_step hx (ih (i1 + 1) i2 rest (by omega) hr)
                      · rw [if_neg k3] at h
                        by_cases k4 : 0 < chooseAB x.kvPairs y.kvPairs "RID"
                        · rw [if_pos k4] at h
                          cases hr : zipper a b i1 (i2 + 1) with
                          | error e => simp only [hr] at h; exact MResult.noConfusion h
                          | ok rest =>
                            simp only [hr] at h
                            cases h
                            exact emitB_step hy (ih i1 (i2 + 1) rest (by omega) hr)
                        · rw [if_neg k4] at h
                          by_cases k5 : chooseAB x.kvPairs y.kvPairs "FITID" < 0
                          · rw [if_pos k5] at h
                            cases hr : zipper a b (i1 + 1) i2 with
                            | error e => simp only [hr] at h; exact MResult.noConfusion h
                            | ok rest =>
                              simp only [hr] at h
                              cases h
                              exact emitA_step hx (ih (i1 + 1) i2 rest (by omega) hr)
                          · rw [if_neg k5] at h
                            by_cases k6 : 0 < chooseAB x.kvPairs y.kvPairs "FITID"
                            · rw [if_pos k6] at h
                              cases hr : zipper a b i1 (i2 + 1) with
                              | error e => simp only [hr] at h; exact MResult.noConfusion h
                              | ok rest =>
                                simp only [hr] at h
                                cases h
                                exact emitB_step hy (ih i1 (i2 + 1) rest (by omega) hr)
                            · rw [if_neg k6] at h
                              exact MResult.noConfusion h
    · rw [dif_neg hc] at h
      cases h
      push_neg at hc
      refine ⟨?_, by simp; omega⟩
      rw [List.drop_eq_nil_of_le hc.1, List.drop_eq_nil_of_le hc.2]
      simp

/-- When the forward common-region walk terminates normally from in-range
cursors, it returns a contiguous slice of `a` and advances both cursors in
lockstep by its length, staying within both sequences. -/
theorem commonWalk_ok_spec (a b : List Transaction) :
    ∀ (m i1 i2 : Nat) (c : List Transaction) (j1 j2 : Nat),
      a.length - i1 + (b.length - i2) ≤ m →
      i1 ≤ a.length → i2 ≤ b.length →
      commonWalk a b i1 i2 = .ok (c, j1, j2) →
      j1 = i1 + c.length ∧ j2 = i2 + c.length ∧
      j1 ≤ a.length ∧ j2 ≤ b.length ∧
      c = (a.drop i1).take c.length := by
  intro m
  induction m with
  | zero =>
    intro i1 i2 c j1 j2 hm hi1 hi2 h
    rw [commonWalk.eq_def,
      dif_neg (by omega : ¬(i1 < a.length ∨ i2 < b.length))] at h
    cases h
    exact ⟨by simp, by simp, hi1, hi2, by simp⟩
  | succ m ih =>
    intro i1 i2 c j1 j2 hm hi1 hi2 h
    rw [commonWalk.eq_def] at h
    by_cases hc : i1 < a.length ∨ i2 < b.length
    · rw [dif_pos hc] at h
      cases hx : a[i1]? with
      | none =>
        cases hy : b[i2]? with
        | none => simp only [hx, hy] at h; exact MResult.noConfusion h
        | some y => simp only [hx, hy] at h; exact MResult.noConfusion h
      | some x =>
        cases hy : b[i2]? with
        | none => simp only [hx, hy] at h; exact MResult.noConfusion h
        | some y =>
          simp only [hx, hy] at h
          by_cases hne : x.code ≠ y.code
          · rw [if_pos hne] at h
            cases h
            exact ⟨by simp, by simp, hi1, hi2, by simp⟩
          · rw [if_neg hne] at h
            cases hr : commonWalk a b (i1 + 1) (i2 + 1) with
            | error e => simp only [hr] at h; exact MResult.noConfusion h
            | ok tpl =>
              obtain ⟨c', j1', j2'⟩ := tpl
              simp only [hr] at h
              cases h
              have hlt1 := getElem?_some_lt hx
              have hlt2 := getElem?_some_lt hy
              obtain ⟨e1, e2, e3, e4, e5⟩ :=
                ih (i1 + 1) (i2 + 1) c' j1 j2 (by omega) (by omega) (by omega) hr
              refine ⟨by simp only [List.length_cons]; omega,
                      by simp only [List.length_cons]; omega, e3, e4, ?_⟩
              rw [getElem?_some_drop hx]
              simp only [List.length_cons, List.take_succ_cons]
              exact congrArg (x :: ·) e5
    · rw [dif_neg hc] at h
      cases h
      exact ⟨by simp, by simp, hi1, hi2, by simp⟩

/-- The backward sync-point scan, started with loop counter `n`, either
falls off the start of `a` (result `-1`) or stops at a matching index below
`n`; in the latter case it has read `b[0]`, so `b` is non-empty. -/
theorem syncScanAux_ok_range (a b : List Transaction) :
    ∀ (n : Nat) (sp : Int), syncScanAux a b n = .ok sp →
      sp = -1 ∨ (0 ≤ sp ∧ sp + 1 ≤ (n : Int) ∧ 0 < b.length) := by
  intro n
  induction n with
  | zero =>
    intro sp h
    simp only [syncScanAux] at h
    cases h
    exact Or.inl rfl
  | succ n ih =>
    intro sp h
    simp only [syncScanAux] at h
    cases hx : a[n]? with
    | none => simp only [hx] at h; exact MResult.noConfusion h
    | some asp =>
      cases hy : b[0]? with
      | none => simp only [hx, hy] at h; exact MResult.noConfusion h
      | some b0 =>
        simp only [hx, hy] at h
        by_cases hcode : asp.code = b0.code
        · rw [if_pos hcode] at h
          cases h
          exact Or.inr ⟨by omega, by omega, getElem?_some_lt hy⟩
        · rw [if_neg hcode] at h
          rcases ih sp h with h' | ⟨e1, e2, e3⟩
          · exact Or.inl h'
          · exact Or.inr ⟨e1, by omega, e3⟩

/-- The sync-point search either reports the scan falling off the start of
`a` (`-1`; the `NoSyncPoint` guard compares against `len(a)` and never
fires) or an in-range match index, in which case `b` is non-empty. -/
theorem findSyncPoint_ok_range (a b : List Transaction) (sp : Int)
    (h : findSyncPoint a b = .ok sp) :
    sp = -1 ∨ (0 ≤ sp ∧ sp + 1 ≤ (a.length : Int) ∧ 0 < b.length) := by
  simp only [findSyncPoint] at h
  cases hs : syncScanAux a b a.length with
  | error e => simp only [hs] at h; exact MResult.noConfusion h
  | ok sp' =>
    simp only [hs] at h
    by_cases heq : sp' = (a.length : Int)
    · rw [if_pos heq] at h; exact MResult.noConfusion h
    · rw [if_neg heq] at h
      cases h
      exact syncScanAux_ok_range a b a.length sp hs

/-- C1: For every pair of input transaction sequences `a` (master) and `b`
(source) for which a valid sync point exists (the backward scan stops at an
index `sp ≥ 0`) and the merge succeeds, the output transaction sequence has
length `|a| + |b| - overlap` where `overlap` is the sync-point prefix match
(one transaction) plus the extended common region counted once; every
transaction present in either input appears in the output (the common region
being represented by `a`'s copies) and no transaction appears twice: the
output is a permutation of `a ++ b.drop overlap`. -/
theorem merge_conservation (a b : List Transaction) (sp : Int)
    (out : List Transaction)
    (hsync : findSyncPoint a b = .ok sp) (hsp : 0 ≤ sp)
    (hok : mergeTransactions a b = .ok out) :
    ∃ common : List Transaction, ∃ i1 i2 : Nat,
      commonWalk a b (sp + 1).toNat 1 = .ok (common, i1, i2) ∧
      out.length + (1 + common.length) = a.length + b.length ∧
      out.Perm (a ++ b.drop (1 + common.length)) := by
  rcases findSyncPoint_ok_range a b sp hsync with rfl | ⟨h0, hlt, hb⟩
  · exact absurd hsp (by decide)
  simp only [mergeTransactions, hsync] at hok
  cases hw : commonWalk a b (sp + 1).toNat 1 with
  | error e => simp only [hw] at hok; exact MResult.noConfusion hok
  | ok tpl =>
    obtain ⟨c, j1, j2⟩ := tpl
    simp only [hw] at hok
    cases hz : zipper a b j1 j2 with
    | error e => simp only [hz] at hok; exact MResult.noConfusion hok
    | ok tail =>
      simp only [hz] at hok
      cases hok
      have hi1sle : (sp + 1).toNat ≤ a.length := by omega
      obtain ⟨e1, e2, e3, e4, e5⟩ :=
        commonWalk_ok_spec a b (a.length + b.length) (sp + 1).toNat 1 c j1 j2
          (by omega) hi1sle hb hw
      obtain ⟨hperm, hlen⟩ :=
        zipper_ok_spec a b (a.length + b.length) j1 j2 tail (by omega) hz
      refine ⟨c, j1, j2, rfl, ?_, ?_⟩
      · have htl : (a.take (sp + 1).toNat).length = (sp + 1).toNat := by
          rw [List.length_take]; omega
        simp only [List.length_append, htl, hlen]
        omega
      · have htake : a.take (sp + 1).toNat ++ c = a.take j1 := by
          conv_lhs => rw [e5]
          rw [e1, List.take_add]
        have hsplit : a ++ b.drop (1 + c.length) =
            a.take j1 ++ (a.drop j1 ++ b.drop j2) := by
          rw [← e2, ← List.append_assoc, List.take_append_drop]
        rw [htake, hsplit]
        exact List.Perm.append_left _ hperm

/-- Witness for `merge_conservation`: `a = [A@1, B@2]`, `b = [B@2]`, sync
point at index 1, empty extended common region, overlap 1, output `[A, B]`. -/
theorem merge_conservation_witness :
    ∃ common : List Transaction, ∃ i1 i2 : Nat,
      commonWalk [zA, zB] [zB] ((1 : Int) + 1).toNat 1 = .ok (common, i1, i2) ∧
      ([zA, zB] : List Transaction).length + (1 + common.length) =
        ([zA, zB] : List Transaction).length + ([zB] : List Transaction).length ∧
      ([zA, zB] : List Transaction).Perm
        ([zA, zB] ++ ([zB] : List Transaction).drop (1 + common.length)) :=
  merge_conservation [zA, zB] [zB] 1 [zA, zB] (by rfl) (by decide)
    (by simp [mergeTransactions, findSyncPoint, syncScanAux, commonWalk, zipper,
          zA, zB])

/-- The backward scan itself never produces the `noSyncPoint` outcome. -/
theorem syncScanAux_ne_noSyncPoint (a b : List Transaction) :
    ∀ n, syncScanAux a b n ≠ .error .noSyncPoint := by
  intro n
  induction n with
  | zero => intro h; simp [syncScanAux] at h
  | succ n ih =>
    intro h
    simp only [syncScanAux] at h
    cases hx : a[n]? <;> cases hy : b[0]? <;> simp only [hx, hy] at h
    case none.none => exact MergeErr.noConfusion (MResult.error.inj h)
    case none.some => exact MergeErr.noConfusion (MResult.error.inj h)
    case some.none => exact MergeErr.noConfusion (MResult.error.inj h)
    case some.some asp b0 =>
      by_cases hcode : asp.code = b0.code
      · rw [if_pos hcode] at h
        exact MResult.noConfusion h
      · rw [if_neg hcode] at h
        exact ih h

/-- The `NoSyncPoint` error branch is dead code: the scan loop exits with
`syncPoint = -1` on a failed search, while the guard tests
`syncPoint == len(f1trs)`, which the scan can never produce. -/
theorem findSyncPoint_ne_noSyncPoint (a b : List Transaction) :
    findSyncPoint a b ≠ .error .noSyncPoint := by
  intro h
  simp only [findSyncPoint] at h
  cases hs : syncScanAux a b a.length with
  | error e =>
    simp only [hs] at h
    cases h
    exact syncScanAux_ne_noSyncPoint a b a.length hs
  | ok sp =>
    simp only [hs] at h
    by_cases hsp : sp = (a.length : Int)
    · rcases syncScanAux_ok_range a b a.length sp hs with rfl | ⟨h0, h1, _⟩
      · omega
      · omega
    · rw [if_neg hsp] at h
      exact MResult.noConfusion h

/-- C2: the claim says an input whose source-head `Code` appears nowhere in
the master must fail with `NoSyncPoint` and produce no output.  The code's
guard compares `syncPoint` against `len(f1trs)` after a loop that ends at
`-1`, so it can never fire on any input; concretely, with `b`'s head `Code`
"Y" matching nothing in `a = [X@1]`, the merge succeeds, emitting `[X, Z]`
and silently dropping `b`'s first transaction. -/
theorem noSyncPoint_guard_dead :
    (∀ a b : List Transaction, findSyncPoint a b ≠ .error .noSyncPoint) ∧
    (∀ t ∈ ([txX] : List Transaction), t.code ≠ txY.code) ∧
    mergeTransactions [txX] [txY, txZ] = .ok [txX, txZ] := by
  refine ⟨findSyncPoint_ne_noSyncPoint, by decide, ?_⟩
  simp [mergeTransactions, findSyncPoint, syncScanAux, commonWalk, zipper,
    txX, txY, txZ]

/-- C3: the claim says the forward overlap walk stops when either sequence
is exhausted and never indexes past the end.  The walk's loop condition is a
disjunction (`||`), so on the spec's own end-to-end scenario
`a = [A@1, B@2]`, `b = [B@2, C@3]` (sync point at index 1) the walk enters
its body with `i1 = 2 = len(a)`, dereferences `a[2]`, and the process
panics. -/
theorem overlap_walk_oob :
    commonWalk [zA, zB] [zB, zC] 2 1 = .error .indexOutOfRange ∧
    mergeTransactions [zA, zB] [zB, zC] = .error .indexOutOfRange := by
  constructor
  · rw [commonWalk.eq_def]
    simp [zA, zB, zC]
  · simp [mergeTransactions, findSyncPoint, syncScanAux, commonWalk,
      zA, zB, zC]

/-- The specification's one-key tie-break agrees with the sign of the
code's `chooseAB` comparator. -/
theorem chooseSideSpec_eq_chooseAB (kva kvb : List (String × String))
    (key : String) :
    chooseSideSpec kva kvb key =
      if chooseAB kva kvb key < 0 then some true
      else if 0 < chooseAB kva kvb key then some false
      else none := by
  cases ha : kva.lookup key with
  | none =>
    cases hb : kvb.lookup key with
    | none => simp [chooseSideSpec, chooseAB, ha, hb]
    | some v2 => simp [chooseSideSpec, chooseAB, ha, hb]
  | some v1 =>
    cases hb : kvb.lookup key with
    | none => simp [chooseSideSpec, chooseAB, ha, hb]
    | some v2 =>
      simp only [chooseSideSpec, chooseAB, ha, hb]
      by_cases he : v1 = v2
      · simp [he]
      · by_cases hlt : v1.data < v2.data
        · simp [he, hlt]
        · simp [he, hlt]

/-- C4: at a same-date tail pair, the zipper resolves the order by the
tie-break cascade exactly as the specification describes it: the keys `ID`,
`RID`, `FITID` tried in that fixed order, each key choosing the side that
alone has the key, or—when both have it with different values—the side with
the lexically smaller value, and passing to the next key when neither side
has it or the values are equal; the chosen side's transaction is emitted
first. -/
theorem tie_break_cascade (a b : List Transaction) (i1 i2 : Nat)
    (x y : Transaction) (hx : a[i1]? = some x) (hy : b[i2]? = some y)
    (hd : x.date = y.date) :
    zipper a b i1 i2 =
      match cascadeSpec x.kvPairs y.kvPairs with
      | some true => MResult.push x (zipper a b (i1 + 1) i2)
      | some false => MResult.push y (zipper a b i1 (i2 + 1))
      | none => .error .unorderable := by
  have hlt1 := getElem?_some_lt hx
  have hlt2 := getElem?_some_lt hy
  conv_lhs => rw [zipper.eq_def]
  rw [dif_pos (Or.inl hlt1), dif_neg (by omega : ¬a.length ≤ i1),
    dif_neg (by omega : ¬b.length ≤ i2)]
  simp only [hx, hy]
  rw [if_neg (by rw [hd]; exact lt_irrefl _),
    if_neg (by rw [hd]; exact lt_irrefl _)]
  unfold cascadeSpec
  rw [chooseSideSpec_eq_chooseAB, chooseSideSpec_eq_chooseAB,
    chooseSideSpec_eq_chooseAB]
  rcases lt_trichotomy (chooseAB x.kvPairs y.kvPairs "ID") 0 with h1 | h1 | h1
  · simp only [if_pos h1]
    cases hz : zipper a b (i1 + 1) i2 <;> simp [hz, MResult.push]
  · simp only [if_neg (show ¬chooseAB x.kvPairs y.kvPairs "ID" < 0 by omega),
      if_neg (show ¬(0 < chooseAB x.kvPairs y.kvPairs "ID") by omega)]
    rcases lt_trichotomy (chooseAB x.kvPairs y.kvPairs "RID") 0 with h2 | h2 | h2
    · simp only [if_pos h2]
      cases hz : zipper a b (i1 + 1) i2 <;> simp [hz, MResult.push]
    · simp only [if_neg (show ¬chooseAB x.kvPairs y.kvPairs "RID" < 0 by omega),
        if_neg (show ¬(0 < chooseAB x.kvPairs y.kvPairs "RID") by omega)]
      rcases lt_trichotomy (chooseAB x.kvPairs y.kvPairs "FITID") 0
        with h3 | h3 | h3
      · simp only [if_pos h3]
        cases hz : zipper a b (i1 + 1) i2 <;> simp [hz, MResult.push]
      · simp only
          [if_neg (show ¬chooseAB x.kvPairs y.kvPairs "FITID" < 0 by omega),
           if_neg (show ¬(0 < chooseAB x.kvPairs y.kvPairs "FITID") by omega)]
      · simp only
          [if_neg (show ¬chooseAB x.kvPairs y.kvPairs "FITID" < 0 by omega),
           if_pos h3]
        cases hz : zipper a b i1 (i2 + 1) <;> simp [hz, MResult.push]
    · simp only [if_neg (show ¬chooseAB x.kvPairs y.kvPairs "RID" < 0 by omega),
        if_pos h2]
      cases hz : zipper a b i1 (i2 + 1) <;> simp [hz, MResult.push]
  · simp only [if_neg (show ¬chooseAB x.kvPairs y.kvPairs "ID" < 0 by omega),
      if_pos h1]
    cases hz : zipper a b i1 (i2 + 1) <;> simp [hz, MResult.push]

/-- Witness for `tie_break_cascade`: `ID "x1"` against `ID "x2"` at equal
dates; the cascade decides at the `ID` key for the master side. -/
theorem tie_break_cascade_witness :
    zipper [wID1] [wID2] 0 0 =
      MResult.push wID1 (zipper [wID1] [wID2] 1 0) :=
  (tie_break_cascade [wID1] [wID2] 0 0 wID1 wID2 rfl rfl rfl).trans
    (by rw [show cascadeSpec wID1.kvPairs wID2.kvPairs = some true from
          by decide])

/-- C5: when the zipper reaches a same-date tail pair on which all three
tie-break keys (`ID`, `RID`, `FITID`) are inconclusive (`chooseAB`
returns 0 for each), the merge fails with the `unorderable` error; and every
transaction-merge error aborts the pipeline with no output value produced —
`main` only creates the destination file after the full in-memory merge has
succeeded. -/
theorem unorderable_aborts (a b : List Transaction) (i1 i2 : Nat)
    (x y : Transaction) (hx : a[i1]? = some x) (hy : b[i2]? = some y)
    (hd : x.date = y.date)
    (hID : chooseAB x.kvPairs y.kvPairs "ID" = 0)
    (hRID : chooseAB x.kvPairs y.kvPairs "RID" = 0)
    (hFITID : chooseAB x.kvPairs y.kvPairs "FITID" = 0) :
    zipper a b i1 i2 = .error .unorderable ∧
    ∀ (a' b' : List Transaction) (adrs bdrs : List Directive) (e : MergeErr),
      mergeTransactions a' b' = .error e →
      runZipper a' b' adrs bdrs = .error e := by
  constructor
  · have hlt1 := getElem?_some_lt hx
    have hlt2 := getElem?_some_lt hy
    rw [zipper.eq_def, dif_pos (Or.inl hlt1),
      dif_neg (by omega : ¬a.length ≤ i1), dif_neg (by omega : ¬b.length ≤ i2)]
    simp only [hx, hy]
    rw [if_neg (by rw [hd]; exact lt_irrefl _),
      if_neg (by rw [hd]; exact lt_irrefl _)]
    simp only [hID, hRID, hFITID]
    norm_num
  · intro a' b' adrs bdrs e hme
    simp only [runZipper, hme]

/-- Witness for `unorderable_aborts`: two same-date transactions with no
key/value annotations at all; the zipper aborts with `unorderable`. -/
theorem unorderable_aborts_witness :
    zipper [u1] [u2] 0 0 = .error .unorderable :=
  (unorderable_aborts [u1] [u2] 0 0 u1 u2 rfl rfl rfl rfl rfl rfl).1

/-- The inner directive loop is the `any` of its comparison over the master
list. -/
theorem directiveDup_eq_any (cmp : Directive → Directive → Bool)
    (d2 : Directive) (l : List Directive) :
    directiveDup cmp d2 l = l.any (fun d1 => cmp d2 d1) := by
  induction l with
  | nil => rfl
  | cons d1 rest ih =>
    simp only [directiveDup, List.any_cons, ih]
    cases cmp d2 d1 <;> simp

/-- `all` of a negated predicate is the negated `any`. -/
theorem all_not_eq_not_any (cmp : Directive → Directive → Bool)
    (d2 : Directive) (a : List Directive) :
    (a.all fun d1 => !cmp d2 d1) = !(a.any fun d1 => cmp d2 d1) := by
  induction a with
  | nil => rfl
  | cons d1 rest ih =>
    cases hcd : cmp d2 d1 <;> simp [List.all_cons, List.any_cons, hcd, ih]

/-- C6: the directive merge returns `a` concatenated with exactly those
elements `d2` of `b` for which `Compare d2 d1` is false for every `d1` in
`a` — `a`'s elements first in `a`'s original order, the kept `b` elements
following in `b`'s original order (a filter of `b`). -/
theorem mergeDirectives_spec (cmp : Directive → Directive → Bool)
    (a b : List Directive) :
    mergeDirectives cmp a b =
      a ++ b.filter (fun d2 => a.all (fun d1 => !cmp d2 d1)) := by
  unfold mergeDirectives
  congr 1
  induction b with
  | nil => rfl
  | cons d2 rest ih =>
    rw [List.filter_cons]
    simp only [mergeDirectivesLoop, directiveDup_eq_any, all_not_eq_not_any]
    cases hc : a.any (fun d1 => cmp d2 d1) <;>
      simp [hc, ih, all_not_eq_not_any]

/-- C7: the claim says every directive in the merged result is emitted with
its provenance field `FoundBefore` reset to zero.  The reset loop iterates
by value (Go `range` copies each element), so the assignment mutates the
copy and the emitted slice is unchanged: merging a master holding one
directive with `FoundBefore = 7` into an empty source emits that directive
with `FoundBefore` still 7. -/
theorem reset_provenance_noop :
    resetFoundBefore (mergeDirectives directiveCompare [d7] []) = [d7] ∧
    d7.foundBefore = 7 :=
  ⟨rfl, rfl⟩

/-- C8: determinism — the merge pipeline is a pure function of its two
parsed inputs (the code performs no map iteration, only map lookups, and no
other source of nondeterminism), so two runs on identical inputs produce
identical merged transaction and directive sequences, and hence
byte-identical serialized output. -/
theorem merge_deterministic (a b : List Transaction)
    (adrs bdrs : List Directive)
    (out1 out2 : MResult (List Transaction × List Directive))
    (h1 : runZipper a b adrs bdrs = out1)
    (h2 : runZipper a b adrs bdrs = out2) :
    out1 = out2 :=
  h1.symm.trans h2

/-- Witness for `merge_deterministic` at a concrete input. -/
theorem merge_deterministic_witness :
    runZipper [zA] [zA] [d7] [d7] = runZipper [zA] [zA] [d7] [d7] :=
  merge_deterministic [zA] [zA] [d7] [d7] _ _ rfl rfl

/-- C9 counterexample: the claim says that for an empty source `b` the
sync-point scan's access to `b[0]` is out of bounds.  With `a` also empty
the scan body never executes, no access occurs, and the whole merge
completes normally with empty output. -/
theorem scan_empty_inputs_ok : mergeTransactions [] [] = .ok [] := by
  simp [mergeTransactions, findSyncPoint, syncScanAux, commonWalk, zipper]

/-- C9 (amended): the sync-point scan reads `b[0]` once per loop iteration,
and iterates once per scanned index of `a`.  Hence: with `b` non-empty the
scan never aborts on an out-of-range access; with `a` non-empty and `b`
empty the first iteration's `b[0]` access is out of range and the process
panics; and with `a` empty the loop body never executes, no access to `b`
occurs, and the scan exits with `-1`. -/
theorem sync_scan_b_access (a b : List Transaction) :
    (b ≠ [] → findSyncPoint a b ≠ .error .indexOutOfRange) ∧
    (a ≠ [] → b = [] → findSyncPoint a b = .error .indexOutOfRange) ∧
    (a = [] → findSyncPoint a b = .ok (-1)) := by
  refine ⟨?_, ?_, ?_⟩
  · intro hb
    obtain ⟨b0, hb0⟩ : ∃ b0, b[0]? = some b0 := by
      cases b with
      | nil => exact absurd rfl hb
      | cons hd tl => exact ⟨hd, by simp⟩
    have haux : ∀ n, n ≤ a.length →
        syncScanAux a b n ≠ .error .indexOutOfRange := by
      intro n
      induction n with
      | zero =>
        intro _ h
        simp [syncScanAux] at h
      | succ n ih =>
        intro hn h
        obtain ⟨asp, hx⟩ : ∃ asp, a[n]? = some asp :=
          ⟨_, List.getElem?_eq_getElem (show n < a.length by omega)⟩
        simp only [syncScanAux, hx, hb0] at h
        by_cases hcode : asp.code = b0.code
        · rw [if_pos hcode] at h
          exact MResult.noConfusion h
        · rw [if_neg hcode] at h
          exact ih (by omega) h
    intro hfe
    simp only [findSyncPoint] at hfe
    cases hs : syncScanAux a b a.length with
    | error e =>
      simp only [hs] at hfe
      cases hfe
      exact haux a.length le_rfl hs
    | ok sp =>
      simp only [hs] at hfe
      by_cases hsp : sp = (a.length : Int)
      · rw [if_pos hsp] at hfe
        exact MergeErr.noConfusion (MResult.error.inj hfe)
      · rw [if_neg hsp] at hfe
        exact MResult.noConfusion hfe
  · intro ha hb
    subst hb
    cases a with
    | nil => exact absurd rfl ha
    | cons hd tl =>
      obtain ⟨asp, hx⟩ : ∃ asp, (hd :: tl)[tl.length]? = some asp :=
        ⟨_, List.getElem?_eq_getElem (by simp)⟩
      simp [findSyncPoint, List.length_cons, syncScanAux, hx]
  · intro ha
    subst ha
    rfl

/-- Witness for `sync_scan_b_access`: a one-transaction master against an
empty source panics in the scan; an empty master never reads the source. -/
theorem sync_scan_b_access_witness :
    findSyncPoint [txX] [] = .error .indexOutOfRange ∧
    findSyncPoint [] [txX] = .ok (-1) :=
  ⟨(sync_scan_b_access [txX] []).2.1 (by simp) rfl,
   (sync_scan_b_access [] [txX]).2.2 rfl⟩

/-- C10: the per-key comparator `chooseAB` is antisymmetric — swapping its
two maps negates the result for every key (and in particular it is 0 for
one order exactly when it is 0 for the other). -/
theorem chooseAB_antisymm (a b : List (String × String)) (key : String) :
    chooseAB a b key = -chooseAB b a key := by
  cases ha : a.lookup key with
  | none =>
    cases hb : b.lookup key with
    | none => simp [chooseAB, ha, hb]
    | some v2 => simp [chooseAB, ha, hb]
  | some v1 =>
    cases hb : b.lookup key with
    | none => simp [chooseAB, ha, hb]
    | some v2 =>
      simp only [chooseAB, ha, hb]
      by_cases he : v1 = v2
      · simp [he]
      · have hne : v2 ≠ v1 := fun h => he h.symm
        rcases lt_trichotomy v1.data v2.data with hlt | heq | hgt
        · rw [if_neg he, if_pos hlt, if_neg hne,
            if_neg (not_lt.mpr hlt.le)]
        · exact absurd
            (by cases v1; cases v2; exact congrArg String.mk (by simpa using heq))
            he
        · rw [if_neg he, if_neg (not_lt.mpr hgt.le), if_neg hne, if_pos hgt]
          decide
